import Mathlib

/-
Verification of the bgrep chunked streaming matcher (src/bgrep.py).

Shallow embedding conventions:
- a byte is a `Nat` (values 0..255; only equality and the printable range
  32..126 matter to the program);
- a bytearray buffer is a `List Nat`; its allocated capacity is the list
  length, the valid region is the prefix of length `size`;
- a byte source is the list of the successive non-empty chunks that
  `f.readinto` delivers; once the list is exhausted every further read
  returns 0 bytes, matching end-of-file behaviour of a regular file;
- the two `while` loops of `BgrepApplication.search` are modelled with
  explicit fuel, so non-termination of the Python loop shows up as the
  function returning `none` for every fuel;
- each reported match is the pair (absolute offset of the match in the
  byte stream, the context slice handed to `on_match_found`).  The
  absolute offset is ghost bookkeeping: the code reports slices only, the
  offset names the byte span the slice starts at.
-/

namespace Bgrep

/-- Python `haystack.find(pat, i, i + pat.length) == i` at one position:
the bytes of `hay` starting at `i` equal `pat`. -/
def matchAt (pat hay : List Nat) (i : Nat) : Bool :=
  ((hay.drop i).take pat.length) == pat

/-- Python `hay.find(pat, start, stop)` (src/bgrep.py lines 199 and 211,
with `stop = size ≤ len(buffer)` in every call the program makes):
the smallest `i` with `start ≤ i`, `i + len(pat) ≤ stop` and a match of
`pat` at `i`; `none` models the return value -1. -/
def pyFind (pat hay : List Nat) (start stop : Nat) : Option Nat :=
  (List.range (stop + 1)).find? fun i =>
    decide (start ≤ i) && decide (i + pat.length ≤ stop) && matchAt pat hay i

/-- Python `buffer.endswith(check, 0, size)` (src/bgrep.py line 225):
`buffer[size - len(check) : size] == check`, false when `len(check) > size`. -/
def bufEndswith (buf : List Nat) (size : Nat) (check : List Nat) : Bool :=
  decide (check.length ≤ size) &&
    ((buf.take size).drop (size - check.length) == check)

/-- The `while check:` loop of src/bgrep.py lines 223-230.  The loop starts
with `check = pattern` and chops the last byte off after each failed
`endswith` test, so the value of `check` after `j` iterations is
`pat.take (pat.length - j)`; this helper runs the loop downward over the
length `k` of the current `check`, returning `len(check)` (the
`size_adjust` of line 227) for the first suffix test that succeeds. -/
def findCarryGo (buf : List Nat) (size : Nat) (pat : List Nat) : Nat → Option Nat
  | 0 => none
  | k + 1 =>
    if bufEndswith buf size (pat.take (k + 1)) then some (k + 1)
    else findCarryGo buf size pat k

/-- Result of the carry scan of src/bgrep.py lines 222-230 beginning with
`check = self.pattern`. -/
def findCarry (buf : List Nat) (size : Nat) (pat : List Nat) : Option Nat :=
  findCarryGo buf size pat pat.length

/-- The inner match loop of src/bgrep.py lines 199-211.  `idx` is the
current result of `buffer.find` (line 199 or 211), `last` the Python
variable `last_match_end` (initially -1, hence an `Int`), `acc` the
matches reported so far via `on_match_found`, most recent first.  Each
reported match is `(index, buffer[index : min(index + len(pat) + 20, size)])`
(lines 202-206).  Fuel exhaustion returns `none`; the Python loop has no
bound of its own and diverges when `find` keeps succeeding at the same
index. -/
def matchLoop (pat buf : List Nat) (size : Nat) :
    Nat → Option Nat → Int → List (Nat × List Nat) →
    Option (List (Nat × List Nat) × Int)
  | _, none, last, acc => some (acc.reverse, last)
  | 0, some _, _, _ => none
  | fuel + 1, some index, _, acc =>
    matchLoop pat buf size fuel
      (pyFind pat buf (index + pat.length) size)
      ((index + pat.length : Nat) : Int)
      ((index,
        (buf.drop index).take (min (index + pat.length + 20) size - index)) :: acc)

/-- One iteration of the outer `while size > 0` body of
src/bgrep.py lines 195-231: run the inner match loop from `index =
buffer.find(pattern, 0, size)`, then the carry scan guarded by
`last_match_end < size`.  Returns `(reported matches, size_adjust,
buffer after the copy of line 226)`; the copy writes
`buffer[0:k] = buffer[size-k:size]` (the right-hand side is materialised
first, so overlap is harmless, exactly as for a Python slice assignment). -/
def processChunk (pat buf : List Nat) (size fuel : Nat) :
    Option (List (Nat × List Nat) × Nat × List Nat) :=
  match matchLoop pat buf size fuel (pyFind pat buf 0 size) (-1) [] with
  | none => none
  | some (em, last) =>
    if last < (size : Int) then
      match findCarry buf size pat with
      | some k => some (em, k, (buf.take size).drop (size - k) ++ buf.drop k)
      | none => some (em, 0, buf)
    else some (em, 0, buf)

/-- Effect of `f.readinto(memoryview(buffer)[off:])` delivering the bytes
`c`: they overwrite `buffer[off : off + len(c)]`, the rest of the buffer
keeps its stale contents. -/
def writeAt (buf : List Nat) (off : Nat) (c : List Nat) : List Nat :=
  buf.take off ++ c ++ buf.drop (off + c.length)

/-- The outer `while size > 0` loop of src/bgrep.py lines 195-234, with
ghost absolute offsets: `base` is the position in the byte stream of
buffer index 0, so a match at buffer index `i` is reported at stream
offset `base + i`.  After a chunk of `size` valid bytes is processed with
carry `k`, the carried bytes `buffer[size-k:size]` move to index 0, hence
the new base is `base + size - k`.  `chunks` are the pending read
results; an exhausted list means every further `readinto` returns 0, so
the new size is `0 + size_adjust` (line 233-234).  Returns the reported
matches and the final buffer, or `none` when the fuel runs out before the
loop exits. -/
def scanLoop (pat : List Nat) (fuel : Nat) (chunks : List (List Nat))
    (buf : List Nat) (size base : Nat) :
    Option (List (Nat × List Nat) × List Nat) :=
  if size = 0 then some ([], buf)
  else
    match fuel, chunks with
    | 0, _ => none
    | fuel + 1, [] =>
      match processChunk pat buf size (size + 1) with
      | none => none
      | some (em, k, buf2) =>
        (scanLoop pat fuel [] buf2 k (base + size - k)).map
          fun r => (em.map (fun p => (base + p.1, p.2)) ++ r.1, r.2)
    | fuel + 1, c :: cs =>
      match processChunk pat buf size (size + 1) with
      | none => none
      | some (em, k, buf2) =>
        (scanLoop pat fuel cs (writeAt buf2 k c) (c.length + k) (base + size - k)).map
          fun r => (em.map (fun p => (base + p.1, p.2)) ++ r.1, r.2)

/-- Buffer size chosen at src/bgrep.py lines 188-190:
`len(pattern) * 2`, raised to 16384 when smaller. -/
def allocSize (pat : List Nat) : Nat :=
  if pat.length * 2 < 16384 then 16384 else pat.length * 2

/-- Model of `BgrepApplication.search` (src/bgrep.py lines 164-237) for one source:
allocate the buffer when the caller passed `None` (lines 187-191,
`bytearray(n)` is `n` zero bytes), do the first full-buffer read
(line 194), run the scan loop, and hand the buffer back (line 237). -/
def search (pat : List Nat) (chunks : List (List Nat))
    (buffer : Option (List Nat)) (fuel : Nat) :
    Option (List (Nat × List Nat) × List Nat) :=
  let buf := match buffer with
    | none => List.replicate (allocSize pat) 0
    | some b => b
  match chunks with
  | [] => some ([], buf)
  | c :: cs => scanLoop pat fuel cs (writeAt buf 0 c) c.length 0

/-- Reported matches of a `search` run, dropping the returned buffer. -/
def searchOut (pat : List Nat) (chunks : List (List Nat))
    (buffer : Option (List Nat)) (fuel : Nat) :
    Option (List (Nat × List Nat)) :=
  (search pat chunks buffer fuel).map Prod.fst

/-- Stream offsets of the reported matches of a `search` run. -/
def searchOffsets (pat : List Nat) (chunks : List (List Nat))
    (buffer : Option (List Nat)) (fuel : Nat) : Option (List Nat) :=
  (search pat chunks buffer fuel).map fun r => r.1.map Prod.fst

/-- One step of the sanitation loop of `on_match_found`
(src/bgrep.py lines 267-271) at index `i`:
`if s[i] < 32 or s[i] > 126: s[i] = 32`. -/
def sanitizeStep (s : List Nat) (i : Nat) : List Nat :=
  if s.getD i 0 < 32 ∨ 126 < s.getD i 0 then s.set i 32 else s

/-- The loop of src/bgrep.py lines 267-271 runs `i` from `len(s) - 1` down
to `patLen`; this helper performs the last `k` iterations, i.e. indices
`patLen + k - 1` down to `patLen`. -/
def sanitizeAux (patLen : Nat) : Nat → List Nat → List Nat
  | 0, s => s
  | k + 1, s => sanitizeAux patLen k (sanitizeStep s (patLen + k))

/-- Sanitation performed by `on_match_found` (src/bgrep.py lines 260-273)
on the slice `s` before printing: every byte at an index `≥ patLen` that
is outside 32..126 becomes a space (32); indices `< patLen` are left
alone. -/
def sanitize (patLen : Nat) (s : List Nat) : List Nat :=
  sanitizeAux patLen (s.length - patLen) s

/-- The line content `on_match_found` prints for a match slice `s`
(src/bgrep.py lines 260-273): the slice with the trailing context
sanitised.  The slice handed in is `buffer[index:s_end]`, a fresh
bytearray copy (Python slicing copies), so this function receives and
returns a value distinct from the scan buffer. -/
def on_match_found (pat s : List Nat) : List Nat :=
  sanitize pat.length s

/-- The inner match loop again, but emitting what the program actually
prints: `on_match_found` is invoked on each slice as soon as the match is
found (src/bgrep.py line 206), before the scan of the chunk continues.
Everything else is identical to `matchLoop`; comparing the two runs
settles whether reporting a match feeds back into the scan. -/
def matchLoopS (pat buf : List Nat) (size : Nat) :
    Nat → Option Nat → Int → List (Nat × List Nat) →
    Option (List (Nat × List Nat) × Int)
  | _, none, last, acc => some (acc.reverse, last)
  | 0, some _, _, _ => none
  | fuel + 1, some index, _, acc =>
    matchLoopS pat buf size fuel
      (pyFind pat buf (index + pat.length) size)
      ((index + pat.length : Nat) : Int)
      ((index,
        on_match_found pat
          ((buf.drop index).take (min (index + pat.length + 20) size - index))) :: acc)

/-- Variant of `processChunk` with in-scan reporting (`matchLoopS` in place of
`matchLoop`). -/
def processChunkS (pat buf : List Nat) (size fuel : Nat) :
    Option (List (Nat × List Nat) × Nat × List Nat) :=
  match matchLoopS pat buf size fuel (pyFind pat buf 0 size) (-1) [] with
  | none => none
  | some (em, last) =>
    if last < (size : Int) then
      match findCarry buf size pat with
      | some k => some (em, k, (buf.take size).drop (size - k) ++ buf.drop k)
      | none => some (em, 0, buf)
    else some (em, 0, buf)

/-- Variant of `scanLoop` with in-scan reporting. -/
def scanLoopS (pat : List Nat) (fuel : Nat) (chunks : List (List Nat))
    (buf : List Nat) (size base : Nat) :
    Option (List (Nat × List Nat) × List Nat) :=
  if size = 0 then some ([], buf)
  else
    match fuel, chunks with
    | 0, _ => none
    | fuel + 1, [] =>
      match processChunkS pat buf size (size + 1) with
      | none => none
      | some (em, k, buf2) =>
        (scanLoopS pat fuel [] buf2 k (base + size - k)).map
          fun r => (em.map (fun p => (base + p.1, p.2)) ++ r.1, r.2)
    | fuel + 1, c :: cs =>
      match processChunkS pat buf size (size + 1) with
      | none => none
      | some (em, k, buf2) =>
        (scanLoopS pat fuel cs (writeAt buf2 k c) (c.length + k) (base + size - k)).map
          fun r => (em.map (fun p => (base + p.1, p.2)) ++ r.1, r.2)

/-- Variant of `search` with in-scan reporting: the pairs
(stream offset, printed line) exactly as the program emits them. -/
def searchS (pat : List Nat) (chunks : List (List Nat))
    (buffer : Option (List Nat)) (fuel : Nat) :
    Option (List (Nat × List Nat) × List Nat) :=
  let buf := match buffer with
    | none => List.replicate (allocSize pat) 0
    | some b => b
  match chunks with
  | [] => some ([], buf)
  | c :: cs => scanLoopS pat fuel cs (writeAt buf 0 c) c.length 0

/-- The `for file_info in files:` loop of `BgrepApplication.run`
(src/bgrep.py lines 149-161): scan each source in turn, threading the
buffer returned by `search` into the next call so it is reused.  Sources
are listed as their chunk sequences; reported matches of all sources are
concatenated (each with its offsets inside its own source).  `none`
propagates fuel exhaustion of an inner scan. -/
def runFiles (pat : List Nat) :
    List (List (List Nat)) → Option (List Nat) → Nat →
    Option (List (Nat × List Nat) × Option (List Nat))
  | [], buffer, _ => some ([], buffer)
  | f :: fs, buffer, fuel =>
    match search pat f buffer fuel with
    | none => none
    | some (em, buf2) =>
      match runFiles pat fs (some buf2) fuel with
      | none => none
      | some (rest, bufF) => some (em ++ rest, bufF)

/-- The path iteration of `BgrepApplication.run` with `FileIterator`
(src/bgrep.py lines 141-161 and 304-368).  Path arguments are abstract
identifiers; `resolve` is the external glob-and-walk collaborator
(`glob.iglob` plus `os.walk`), mapping a path argument to the sources it
denotes.  `FileIterator._iter_pattern` (lines 347-356) turns an empty
glob result into a call of `self.on_error`; in `run` the subclass
override `MyFileIterator.on_error` (lines 142-144) executes
`self.log_warning(message)`, and `FileIterator` defines no attribute
`log_warning`, so the Python attribute lookup raises `AttributeError`
inside the generator, aborting the iteration.  The returned pair is
(sources yielded before any such crash, the exception if one occurred). -/
def iterPaths (resolve : Nat → List (List (List Nat))) :
    List Nat → List (List (List Nat)) × Option String
  | [] => ([], none)
  | p :: ps =>
    if resolve p = [] then
      ([], some "AttributeError: MyFileIterator object has no attribute log_warning")
    else
      (resolve p ++ (iterPaths resolve ps).1, (iterPaths resolve ps).2)

/-- The whole application run for given path arguments: the matches
printed before the run ends (normally or by the `AttributeError` crash)
and the exception, if any. -/
def runApp (pat : List Nat) (resolve : Nat → List (List (List Nat)))
    (paths : List Nat) (fuel : Nat) :
    Option (List (Nat × List Nat)) × Option String :=
  ((runFiles pat (iterPaths resolve paths).1 none fuel).map Prod.fst,
    (iterPaths resolve paths).2)

/-- Concrete path environment for the crash scenario: path argument 0 is
a glob that matches nothing, path argument 1 resolves to one readable
file whose single chunk is the two bytes "ab". -/
def resolveEx : Nat → List (List (List Nat)) :=
  fun p => if p = 0 then [] else [[[97, 98]]]

end Bgrep


open Bgrep

theorem sanitizeStep_length (s : List Nat) (i : Nat) :
    (sanitizeStep s i).length = s.length := by
  unfold sanitizeStep
  split <;> simp

theorem sanitizeStep_getD_ne (s : List Nat) (i j : Nat) (h : j ≠ i) :
    (sanitizeStep s i).getD j 0 = s.getD j 0 := by
  unfold sanitizeStep
  split
  · simp [List.getD_eq_getElem?_getD, List.getElem?_set_ne (Ne.symm h)]
  · rfl

theorem sanitizeStep_getD_self (s : List Nat) (i : Nat) :
    (sanitizeStep s i).getD i 0 =
      if i < s.length ∧ (s.getD i 0 < 32 ∨ 126 < s.getD i 0) then 32
      else s.getD i 0 := by
  unfold sanitizeStep
  by_cases hlen : i < s.length
  · by_cases hbad : s.getD i 0 < 32 ∨ 126 < s.getD i 0
    · rw [if_pos hbad, if_pos ⟨hlen, hbad⟩]
      simp [List.getD_eq_getElem?_getD, List.getElem?_set_eq_of_lt _ hlen]
    · rw [if_neg hbad, if_neg (by rintro ⟨-, hb⟩; exact hbad hb)]
  · have hset : s.set i 32 = s := List.set_eq_of_length_le (by omega)
    rw [hset, ite_self, if_neg (by rintro ⟨ha, -⟩; omega)]

theorem sanitizeAux_length (patLen : Nat) : ∀ (k : Nat) (s : List Nat),
    (sanitizeAux patLen k s).length = s.length := by
  intro k
  induction k with
  | zero => intro s; rfl
  | succ k ih => intro s; rw [sanitizeAux, ih, sanitizeStep_length]

theorem sanitizeAux_getD (patLen : Nat) : ∀ (k : Nat) (s : List Nat) (j : Nat),
    (sanitizeAux patLen k s).getD j 0 =
      if patLen ≤ j ∧ j < patLen + k ∧ j < s.length ∧
          (s.getD j 0 < 32 ∨ 126 < s.getD j 0) then 32
      else s.getD j 0 := by
  intro k
  induction k with
  | zero =>
    intro s j
    have : ¬ (patLen ≤ j ∧ j < patLen + 0 ∧ j < s.length ∧
        (s.getD j 0 < 32 ∨ 126 < s.getD j 0)) := by
      rintro ⟨h1, h2, -⟩; omega
    rw [sanitizeAux, if_neg this]
  | succ k ih =>
    intro s j
    rw [sanitizeAux, ih]
    by_cases hj : j = patLen + k
    · subst hj
      rw [if_neg (show ¬ (patLen ≤ patLen + k ∧ patLen + k < patLen + k ∧
          patLen + k < (sanitizeStep s (patLen + k)).length ∧
          ((sanitizeStep s (patLen + k)).getD (patLen + k) 0 < 32 ∨
            126 < (sanitizeStep s (patLen + k)).getD (patLen + k) 0)) from by
        rintro ⟨-, h, -⟩; omega)]
      rw [sanitizeStep_getD_self]
      by_cases h2 : patLen + k < s.length ∧
          (s.getD (patLen + k) 0 < 32 ∨ 126 < s.getD (patLen + k) 0)
      · rw [if_pos h2, if_pos ⟨by omega, by omega, h2.1, h2.2⟩]
      · rw [if_neg h2, if_neg (by rintro ⟨-, -, ha, hb⟩; exact h2 ⟨ha, hb⟩)]
    · rw [sanitizeStep_getD_ne s (patLen + k) j hj, sanitizeStep_length]
      by_cases h2 : patLen ≤ j ∧ j < patLen + k ∧ j < s.length ∧
          (s.getD j 0 < 32 ∨ 126 < s.getD j 0)
      · rw [if_pos h2, if_pos ⟨h2.1, by omega, h2.2.2⟩]
      · rw [if_neg h2, if_neg (by rintro ⟨ha, hb, hc⟩; exact h2 ⟨ha, by omega, hc⟩)]

theorem pyFind_some {pat hay : List Nat} {start stop i : Nat}
    (h : pyFind pat hay start stop = some i) :
    start ≤ i ∧ i + pat.length ≤ stop ∧ matchAt pat hay i = true := by
  have := List.find?_some h
  simp only [Bool.and_eq_true, decide_eq_true_eq] at this
  exact ⟨this.1.1, this.1.2, this.2⟩

theorem pyFind_none {pat hay : List Nat} {start stop : Nat}
    (h : pyFind pat hay start stop = none) :
    ∀ i, start ≤ i → i + pat.length ≤ stop → matchAt pat hay i = false := by
  intro i h1 h2
  have hmem : i ∈ List.range (stop + 1) := by
    rw [List.mem_range]; omega
  have := List.find?_eq_none.mp h i hmem
  simp only [Bool.and_eq_true, decide_eq_true_eq, not_and] at this
  exact Bool.eq_false_iff.mpr fun hc => this ⟨h1, h2⟩ hc

theorem matchAt_take {pat buf : List Nat} {i : Nat} (h : matchAt pat buf i = true) :
    ((buf.drop i).take pat.length) = pat := by
  simpa [matchAt] using h

theorem matchLoop_mem {pat buf : List Nat} {size : Nat} :
    ∀ (fuel : Nat) (idx : Option Nat) (last : Int) (acc em : List (Nat × List Nat))
      (l2 : Int),
      (∀ i, idx = some i → i + pat.length ≤ size ∧ matchAt pat buf i = true) →
      (∀ p ∈ acc, p.2.take pat.length = pat ∧ p.2.length ≤ pat.length + 20) →
      matchLoop pat buf size fuel idx last acc = some (em, l2) →
      ∀ p ∈ em, p.2.take pat.length = pat ∧ p.2.length ≤ pat.length + 20 := by
  intro fuel
  induction fuel with
  | zero =>
    intro idx last acc em l2 hidx hacc hrun
    cases idx with
    | none =>
      rw [matchLoop] at hrun
      cases hrun
      intro p hp
      exact hacc p (List.mem_reverse.mp hp)
    | some i => rw [matchLoop] at hrun; cases hrun
  | succ fuel ih =>
    intro idx last acc em l2 hidx hacc hrun
    cases idx with
    | none =>
      rw [matchLoop] at hrun
      cases hrun
      intro p hp
      exact hacc p (List.mem_reverse.mp hp)
    | some i =>
      rw [matchLoop] at hrun
      have hi := hidx i rfl
      refine ih _ _ _ em l2 (fun i2 h2 => ?_) (fun p hp => ?_) hrun
      · exact ⟨(pyFind_some h2).2.1, (pyFind_some h2).2.2⟩
      · rcases List.mem_cons.mp hp with hp | hp
        · subst hp
          constructor
          · have hm : i + pat.length ≤ min (i + pat.length + 20) size := by
              omega
            rw [List.take_take]
            have : min pat.length (min (i + pat.length + 20) size - i) = pat.length := by
              omega
            rw [this]
            exact matchAt_take hi.2
          · calc ((buf.drop i).take (min (i + pat.length + 20) size - i)).length
                ≤ min (i + pat.length + 20) size - i := by
                  simp
              _ ≤ pat.length + 20 := by omega
        · exact hacc p hp

theorem processChunk_run {pat buf : List Nat} {size fuel : Nat}
    {em : List (Nat × List Nat)} {k : Nat} {buf2 : List Nat}
    (h : processChunk pat buf size fuel = some (em, k, buf2)) :
    ∃ l2, matchLoop pat buf size fuel (pyFind pat buf 0 size) (-1) [] = some (em, l2) := by
  rcases hm : matchLoop pat buf size fuel (pyFind pat buf 0 size) (-1) [] with - | r
  · simp only [processChunk, hm] at h
    exact Option.noConfusion h
  · obtain ⟨em0, l0⟩ := r
    simp only [processChunk, hm] at h
    refine ⟨l0, ?_⟩
    split at h
    · rcases hc : findCarry buf size pat with - | k0 <;>
        simp only [hc] at h <;> (obtain ⟨rfl, -, -⟩ := h; rfl)
    · obtain ⟨rfl, -, -⟩ := h
      rfl

theorem processChunk_em_mem {pat buf : List Nat} {size fuel : Nat}
    {em : List (Nat × List Nat)} {k : Nat} {buf2 : List Nat}
    (h : processChunk pat buf size fuel = some (em, k, buf2)) :
    ∀ p ∈ em, p.2.take pat.length = pat ∧ p.2.length ≤ pat.length + 20 := by
  obtain ⟨l2, hm⟩ := processChunk_run h
  refine matchLoop_mem fuel _ _ [] em l2 (fun i hi => ?_) (by simp) hm
  exact ⟨(pyFind_some hi).2.1, (pyFind_some hi).2.2⟩

theorem scanLoop_mem {pat : List Nat} :
    ∀ (fuel : Nat) (chunks : List (List Nat)) (buf : List Nat) (size base : Nat)
      (em : List (Nat × List Nat)) (bufF : List Nat),
      scanLoop pat fuel chunks buf size base = some (em, bufF) →
      ∀ p ∈ em, p.2.take pat.length = pat ∧ p.2.length ≤ pat.length + 20 := by
  intro fuel
  induction fuel with
  | zero =>
    intro chunks buf size base em bufF hrun
    rw [scanLoop.eq_def] at hrun
    split at hrun
    · cases hrun; simp
    · cases hrun
  | succ fuel ih =>
    intro chunks buf size base em bufF hrun
    rw [scanLoop.eq_def] at hrun
    split at hrun
    · cases hrun; simp
    · cases chunks with
      | nil =>
        simp only at hrun
        rcases hp : processChunk pat buf size (size + 1) with - | r
        · rw [hp] at hrun; cases hrun
        · obtain ⟨em0, k, buf2⟩ := r
          rw [hp] at hrun
          simp only [Option.map_eq_some'] at hrun
          obtain ⟨r2, hr2, heq⟩ := hrun
          cases heq
          intro p hp2
          rcases List.mem_append.mp hp2 with hp2 | hp2
          · obtain ⟨q, hq, rfl⟩ := List.mem_map.mp hp2
            exact processChunk_em_mem hp q hq
          · exact ih _ _ _ _ _ _ hr2 p hp2
      | cons c cs =>
        simp only at hrun
        rcases hp : processChunk pat buf size (size + 1) with - | r
        · rw [hp] at hrun; cases hrun
        · obtain ⟨em0, k, buf2⟩ := r
          rw [hp] at hrun
          simp only [Option.map_eq_some'] at hrun
          obtain ⟨r2, hr2, heq⟩ := hrun
          cases heq
          intro p hp2
          rcases List.mem_append.mp hp2 with hp2 | hp2
          · obtain ⟨q, hq, rfl⟩ := List.mem_map.mp hp2
            exact processChunk_em_mem hp q hq
          · exact ih _ _ _ _ _ _ hr2 p hp2

theorem search_mem {pat : List Nat} {chunks : List (List Nat)}
    {buffer : Option (List Nat)} {fuel : Nat} {em : List (Nat × List Nat)}
    {bufF : List Nat} (h : search pat chunks buffer fuel = some (em, bufF)) :
    ∀ p ∈ em, p.2.take pat.length = pat ∧ p.2.length ≤ pat.length + 20 := by
  cases chunks with
  | nil =>
    simp only [search] at h
    obtain ⟨rfl, -⟩ := h
    simp
  | cons c cs =>
    simp only [search] at h
    exact scanLoop_mem _ _ _ _ _ _ _ h

theorem pyFind_none_big {pat hay : List Nat} {s stop : Nat} (h : stop < s) :
    pyFind pat hay s stop = none := by
  apply List.find?_eq_none.mpr
  intro i hi
  rw [List.mem_range] at hi
  simp only [Bool.and_eq_true, decide_eq_true_eq, not_and]
  rintro ⟨h1, h2⟩
  omega

theorem matchLoop_run {pat buf : List Nat} {size : Nat} (hp : pat ≠ []) :
    ∀ (fuel s : Nat) (last : Int) (acc : List (Nat × List Nat)),
      size + 1 ≤ fuel + s →
      ∃ em l2 t,
        matchLoop pat buf size fuel (pyFind pat buf s size) last acc = some (em, l2) ∧
        pyFind pat buf t size = none ∧ ((l2 = last ∧ t = s) ∨ l2 = (t : Int)) := by
  intro fuel
  induction fuel with
  | zero =>
    intro s last acc hle
    have hnone : pyFind pat buf s size = none := pyFind_none_big (by omega)
    rw [hnone, matchLoop]
    exact ⟨acc.reverse, last, s, rfl, hnone, Or.inl ⟨rfl, rfl⟩⟩
  | succ fuel ih =>
    intro s last acc hle
    rcases hf : pyFind pat buf s size with - | i
    · rw [matchLoop]
      exact ⟨acc.reverse, last, s, rfl, hf, Or.inl ⟨rfl, rfl⟩⟩
    · rw [matchLoop]
      obtain ⟨h1, h2, h3⟩ := pyFind_some hf
      have hplen : 1 ≤ pat.length := by
        cases pat with
        | nil => exact absurd rfl hp
        | cons a l => simp
      obtain ⟨em, l2, t, hrun, hnone, hor⟩ :=
        ih (i + pat.length) ((i + pat.length : Nat) : Int) _ (by omega)
      refine ⟨em, l2, t, hrun, hnone, Or.inr ?_⟩
      rcases hor with ⟨hl, ht⟩ | hl
      · rw [hl, ht]
      · exact hl

theorem findCarryGo_le {buf : List Nat} {size : Nat} {pat : List Nat} :
    ∀ (k : Nat), k ≤ pat.length → ∀ {j : Nat},
      findCarryGo buf size pat k = some j → j ≤ k ∧ j ≤ size := by
  intro k
  induction k with
  | zero => intro hk j h; cases h
  | succ k ih =>
    intro hk j h
    rw [findCarryGo] at h
    split at h
    · next hend =>
      cases h
      refine ⟨le_refl _, ?_⟩
      unfold bufEndswith at hend
      have h1 := (Bool.and_eq_true _ _).mp hend
      have h2 := of_decide_eq_true h1.1
      rw [List.length_take] at h2
      omega
    · have := ih (by omega) h
      omega

theorem findCarry_le {buf : List Nat} {size : Nat} {pat : List Nat} {k : Nat}
    (h : findCarry buf size pat = some k) : k ≤ pat.length ∧ k ≤ size :=
  findCarryGo_le pat.length (le_refl _) h

theorem processChunk_shape {pat buf : List Nat} {size fuel : Nat}
    {em : List (Nat × List Nat)} {k : Nat} {buf2 : List Nat}
    (h : processChunk pat buf size fuel = some (em, k, buf2)) :
    (k = 0 ∧ buf2 = buf) ∨
      (findCarry buf size pat = some k ∧
        buf2 = (buf.take size).drop (size - k) ++ buf.drop k) := by
  rcases hm : matchLoop pat buf size fuel (pyFind pat buf 0 size) (-1) [] with - | r
  · simp only [processChunk, hm] at h
    exact Option.noConfusion h
  · obtain ⟨em0, l0⟩ := r
    simp only [processChunk, hm] at h
    split at h
    · rcases hc : findCarry buf size pat with - | k0 <;> simp only [hc] at h
      · obtain ⟨-, rfl, rfl⟩ := h
        exact Or.inl ⟨rfl, rfl⟩
      · obtain ⟨-, rfl, rfl⟩ := h
        exact Or.inr ⟨rfl, rfl⟩
    · obtain ⟨-, rfl, rfl⟩ := h
      exact Or.inl ⟨rfl, rfl⟩

theorem processChunk_len {pat buf : List Nat} {size fuel : Nat}
    {em : List (Nat × List Nat)} {k : Nat} {buf2 : List Nat}
    (hsz : size ≤ buf.length)
    (h : processChunk pat buf size fuel = some (em, k, buf2)) :
    buf2.length = buf.length ∧ k ≤ pat.length ∧ k ≤ size := by
  rcases processChunk_shape h with ⟨rfl, rfl⟩ | ⟨hc, rfl⟩
  · simp
  · obtain ⟨h1, h2⟩ := findCarry_le hc
    refine ⟨?_, ?_, h2⟩
    · simp only [List.length_append, List.length_drop, List.length_take]
      omega
    · omega

theorem writeAt_len {buf : List Nat} {off : Nat} {c : List Nat}
    (h : off + c.length ≤ buf.length) :
    (writeAt buf off c).length = buf.length := by
  simp only [writeAt, List.length_append, List.length_take, List.length_drop]
  omega

theorem scanLoop_len {pat : List Nat} :
    ∀ (fuel : Nat) (chunks : List (List Nat)) (buf : List Nat) (size base : Nat)
      (em : List (Nat × List Nat)) (bufF : List Nat),
      (∀ c ∈ chunks, pat.length + c.length ≤ buf.length) →
      size ≤ buf.length →
      scanLoop pat fuel chunks buf size base = some (em, bufF) →
      bufF.length = buf.length := by
  intro fuel
  induction fuel with
  | zero =>
    intro chunks buf size base em bufF hch hsz hrun
    rw [scanLoop.eq_def] at hrun
    split at hrun
    · cases hrun; rfl
    · cases hrun
  | succ fuel ih =>
    intro chunks buf size base em bufF hch hsz hrun
    rw [scanLoop.eq_def] at hrun
    split at hrun
    · cases hrun; rfl
    · cases chunks with
      | nil =>
        simp only at hrun
        rcases hp : processChunk pat buf size (size + 1) with - | r
        · rw [hp] at hrun; cases hrun
        · obtain ⟨em0, k, buf2⟩ := r
          rw [hp] at hrun
          simp only [Option.map_eq_some'] at hrun
          obtain ⟨r2, hr2, heq⟩ := hrun
          cases heq
          obtain ⟨hl, hk1, hk2⟩ := processChunk_len hsz hp
          have := ih [] buf2 k _ _ _ (by simp) (by omega) hr2
          omega
      | cons c cs =>
        simp only at hrun
        rcases hp : processChunk pat buf size (size + 1) with - | r
        · rw [hp] at hrun; cases hrun
        · obtain ⟨em0, k, buf2⟩ := r
          rw [hp] at hrun
          simp only [Option.map_eq_some'] at hrun
          obtain ⟨r2, hr2, heq⟩ := hrun
          cases heq
          obtain ⟨hl, hk1, hk2⟩ := processChunk_len hsz hp
          have hc := hch c (by simp)
          have hw : (writeAt buf2 k c).length = buf.length := by
            rw [writeAt_len (by omega)]
            omega
          have := ih cs (writeAt buf2 k c) (c.length + k) _ _ _
            (fun c2 hc2 => by rw [hw]; exact hch c2 (by simp [hc2]))
            (by omega) hr2
          omega

theorem search_len {pat : List Nat} {chunks : List (List Nat)} {b : List Nat}
    {fuel : Nat} {em : List (Nat × List Nat)} {b2 : List Nat}
    (hch : ∀ c ∈ chunks, pat.length + c.length ≤ b.length)
    (h : search pat chunks (some b) fuel = some (em, b2)) :
    b2.length = b.length := by
  cases chunks with
  | nil =>
    simp only [search] at h
    obtain ⟨-, rfl⟩ := h
    rfl
  | cons c cs =>
    simp only [search] at h
    have hc := hch c (by simp)
    have hw : (writeAt b 0 c).length = b.length := writeAt_len (by omega)
    have := scanLoop_len fuel cs (writeAt b 0 c) c.length 0 em b2
      (fun c2 hc2 => by rw [hw]; exact hch c2 (by simp [hc2]))
      (by omega) h
    omega

theorem runFiles_len {pat : List Nat} :
    ∀ (files : List (List (List Nat))) (b : List Nat) (fuel : Nat)
      (out : List (Nat × List Nat)) (bo : Option (List Nat)),
      (∀ f ∈ files, ∀ c ∈ f, pat.length + c.length ≤ b.length) →
      runFiles pat files (some b) fuel = some (out, bo) →
      ∃ b2, bo = some b2 ∧ b2.length = b.length := by
  intro files
  induction files with
  | nil =>
    intro b fuel out bo hv h
    rw [runFiles] at h
    obtain ⟨-, rfl⟩ := h
    exact ⟨b, rfl, rfl⟩
  | cons f fs ih =>
    intro b fuel out bo hv h
    rw [runFiles] at h
    rcases hs : search pat f (some b) fuel with - | r
    · rw [hs] at h; cases h
    · obtain ⟨em, buf2⟩ := r
      simp only [hs] at h
      have hl2 : buf2.length = b.length :=
        search_len (fun c hc => hv f (by simp) c hc) hs
      rcases hr : runFiles pat fs (some buf2) fuel with - | r2
      · simp only [hr] at h
        exact Option.noConfusion h
      · obtain ⟨rest, bufF⟩ := r2
        simp only [hr] at h
        have h2 : bufF = bo := congrArg Prod.snd (Option.some.inj h)
        obtain ⟨b2, hb2, hlen⟩ := ih buf2 fuel rest bufF
          (fun f2 hf2 c hc => by rw [hl2]; exact hv f2 (by simp [hf2]) c hc) hr
        exact ⟨b2, h2 ▸ hb2, by omega⟩

theorem matchLoopS_eq {pat buf : List Nat} {size : Nat} :
    ∀ (fuel : Nat) (idx : Option Nat) (last : Int) (acc : List (Nat × List Nat)),
      matchLoopS pat buf size fuel idx last
          (acc.map fun p => (p.1, on_match_found pat p.2)) =
        (matchLoop pat buf size fuel idx last acc).map
          (fun r => (r.1.map fun p => (p.1, on_match_found pat p.2), r.2)) := by
  intro fuel
  induction fuel with
  | zero =>
    intro idx last acc
    cases idx with
    | none =>
      rw [matchLoopS, matchLoop]
      simp [List.map_reverse]
    | some i => rw [matchLoopS, matchLoop]; rfl
  | succ fuel ih =>
    intro idx last acc
    cases idx with
    | none =>
      rw [matchLoopS, matchLoop]
      simp [List.map_reverse]
    | some i =>
      rw [matchLoopS, matchLoop]
      exact ih (pyFind pat buf (i + pat.length) size) ((i + pat.length : Nat) : Int)
        ((i, (buf.drop i).take (min (i + pat.length + 20) size - i)) :: acc)

theorem processChunkS_eq (pat buf : List Nat) (size fuel : Nat) :
    processChunkS pat buf size fuel =
      (processChunk pat buf size fuel).map
        (fun r => (r.1.map fun p => (p.1, on_match_found pat p.2), r.2.1, r.2.2)) := by
  unfold processChunkS processChunk
  have h := @matchLoopS_eq pat buf size fuel (pyFind pat buf 0 size) (-1) []
  simp only [List.map_nil] at h
  rw [h]
  rcases matchLoop pat buf size fuel (pyFind pat buf 0 size) (-1) [] with - | r
  · rfl
  · obtain ⟨em, last⟩ := r
    simp only [Option.map_some']
    by_cases hl : last < (size : Int)
    · rw [if_pos hl, if_pos hl]
      rcases findCarry buf size pat with - | k <;> rfl
    · rw [if_neg hl, if_neg hl]
      rfl

theorem scanLoopS_eq {pat : List Nat} :
    ∀ (fuel : Nat) (chunks : List (List Nat)) (buf : List Nat) (size base : Nat),
      scanLoopS pat fuel chunks buf size base =
        (scanLoop pat fuel chunks buf size base).map
          (fun r => (r.1.map fun p => (p.1, on_match_found pat p.2), r.2)) := by
  intro fuel
  induction fuel with
  | zero =>
    intro chunks buf size base
    by_cases hsz : size = 0
    · subst hsz; rfl
    · rw [scanLoopS.eq_def, scanLoop.eq_def]
      simp only [if_neg hsz]
      rfl
  | succ fuel ih =>
    intro chunks buf size base
    by_cases hsz : size = 0
    · subst hsz
      rw [scanLoopS.eq_def, scanLoop.eq_def]
      rfl
    · rw [scanLoopS.eq_def, scanLoop.eq_def]
      simp only [if_neg hsz]
      cases chunks with
      | nil =>
        simp only [processChunkS_eq]
        rcases processChunk pat buf size (size + 1) with - | r
        · rfl
        · obtain ⟨em, k, buf2⟩ := r
          simp only [Option.map_some']
          rw [ih]
          rcases scanLoop pat fuel [] buf2 k (base + size - k) with - | r2
          · rfl
          · obtain ⟨rest, bufF⟩ := r2
            simp only [Option.map_some', List.map_append, List.map_map]
            rfl
      | cons c cs =>
        simp only [processChunkS_eq]
        rcases processChunk pat buf size (size + 1) with - | r
        · rfl
        · obtain ⟨em, k, buf2⟩ := r
          simp only [Option.map_some']
          rw [ih]
          rcases scanLoop pat fuel cs (writeAt buf2 k c) (c.length + k) (base + size - k)
            with - | r2
          · rfl
          · obtain ⟨rest, bufF⟩ := r2
            simp only [Option.map_some', List.map_append, List.map_map]
            rfl

theorem scanLoop_carry_stationary : ∀ (fuel : Nat) (rest : List Nat) (base : Nat),
    scanLoop [97, 98, 99] fuel [] (97 :: rest) 1 base = none := by
  intro fuel
  induction fuel with
  | zero => intro rest base; rfl
  | succ f ih =>
    intro rest base
    have step : scanLoop [97, 98, 99] (f + 1) [] (97 :: rest) 1 base =
        (scanLoop [97, 98, 99] f [] (97 :: rest) 1 (base + 1 - 1)).map
          (fun r => (r.1, r.2)) := rfl
    rw [step, ih]
    rfl

theorem scanLoop_carry_from_xa : ∀ (fuel : Nat) (rest : List Nat) (base : Nat),
    scanLoop [97, 98, 99] fuel [] (120 :: 97 :: rest) 2 base = none := by
  intro fuel
  cases fuel with
  | zero => intro rest base; rfl
  | succ f =>
    intro rest base
    have step : scanLoop [97, 98, 99] (f + 1) [] (120 :: 97 :: rest) 2 base =
        (scanLoop [97, 98, 99] f [] (97 :: 97 :: rest) 1 (base + 2 - 1)).map
          (fun r => (r.1, r.2)) := rfl
    rw [step, scanLoop_carry_stationary]
    rfl

/-- C1: the claim asserts chunk-boundary invariance: delivering a haystack in
any chunk sizes reports the same match offsets as one single chunk.  The code
violates it: pattern "aa" against haystack "aaaa" reports stream offsets 0 and
2 when the haystack arrives in one chunk, but offsets 0, 1 and 2 when it
arrives as "aaa" then "a", because the carry scan of lines 222-230 starts with
`check = self.pattern` and so carries a full-pattern suffix ("aa" at offsets
1-2) across the boundary, where the next pass re-finds and re-reports it even
though it starts inside the already reported match at offset 0. -/
theorem c1_chunk_split_changes_offsets :
    searchOffsets [97, 97] [[97, 97, 97, 97]] none 10 = some [0, 2] ∧
    searchOffsets [97, 97] [[97, 97, 97], [97]] none 10 = some [0, 1, 2] := by
  decide

/-- C2: the claim asserts the scan loop terminates when a read returns zero
bytes, a pending partial-match carry being discarded.  The code violates it:
with pattern "abc" and a source whose single chunk is "xa", the trailing "a"
is carried (size_adjust = 1), the next read returns 0, but line 234 makes
`size = 0 + 1 > 0`, the carried byte is carried again, and the loop never
exits: the model returns `none` at every fuel.  The second conjunct shows the
loop does terminate at end of source when no partial match is pending. -/
theorem c2_eof_pending_carry_loops :
    (∀ fuel : Nat, search [97, 98, 99] [[120, 97]] none fuel = none) ∧
    searchOut [97, 98, 99] [[120, 121]] none 5 = some [] := by
  constructor
  · intro fuel
    show scanLoop [97, 98, 99] fuel []
        (writeAt (List.replicate (allocSize [97, 98, 99]) 0) 0 [120, 97]) 2 0 = none
    have hbuf : writeAt (List.replicate (allocSize [97, 98, 99]) 0) 0 [120, 97] =
        120 :: 97 :: (List.replicate (allocSize [97, 98, 99]) 0).drop 2 := rfl
    rw [hbuf]
    exact scanLoop_carry_from_xa fuel _ 0
  · decide

theorem c2_eof_pending_carry_loops_witness :
    search [97, 98, 99] [[120, 97]] none 30 = none :=
  c2_eof_pending_carry_loops.1 30

/-- C3: the claim asserts that the empty pattern terminates and reports a
zero-length match at every offset 0..N of a haystack of length N.  The code
violates it on both counts: on the haystack "a" (N = 1),
`buffer.find(b"", index, size)` returns `index` and line 209 advances `index`
by `len(pattern) = 0`, so the inner loop of lines 200-211 finds offset 0
forever and never terminates (the model returns `none` at every fuel); and on
the empty haystack (N = 0) the first read returns 0, the loop body never runs,
and no match at offset 0 is reported at all. -/
theorem c3_empty_pattern_loops :
    (∀ fuel : Nat, search [] [[97]] none fuel = none) ∧
    searchOut [] [] none 5 = some [] := by
  refine ⟨fun fuel => ?_, rfl⟩
  cases fuel with
  | zero => rfl
  | succ f => rfl

theorem c3_empty_pattern_loops_witness :
    search [] [[97]] none 30 = none :=
  c3_empty_pattern_loops.1 30

/-- C4: the claim asserts that no occurrence starting inside a previously
reported match is separately reported.  The code satisfies the claim on its
own example (pattern "aa", haystack "aaaa": offsets 0 and 2 only) but violates
the universal statement: on haystack "aaaaa", delivered in one single chunk,
it reports offsets 0, 2 and 3 — the occurrence at offset 3 starts inside the
reported span [2, 4).  The cause is the carry scan of lines 222-230 starting
with the full pattern: the suffix "aa" at offsets 3-4 is carried although it
overlaps the match reported at 2, and the extra end-of-source pass re-finds
and reports it. -/
theorem c4_overlap_rereported :
    searchOffsets [97, 97] [[97, 97, 97, 97]] none 10 = some [0, 2] ∧
    searchOut [97, 97] [[97, 97, 97, 97, 97]] none 10 =
      some [(0, [97, 97, 97, 97, 97]), (2, [97, 97, 97]), (3, [97, 97])] := by
  decide

/-- C5: in the slice printed for a match, every byte at an index at or past
the pattern length (the trailing context) whose value lies outside 32..126 is
replaced by the space byte 32 before output, every context byte inside 32..126
is kept, and every byte inside the pattern span (index below the pattern
length) is passed through unmodified, as performed by the loop of
src/bgrep.py lines 267-271. -/
theorem c5_sanitize_contract (patLen : Nat) (s : List Nat) (i : Nat) (h : i < s.length) :
    (sanitize patLen s).length = s.length ∧
    (i < patLen → (sanitize patLen s).getD i 0 = s.getD i 0) ∧
    (patLen ≤ i →
      (s.getD i 0 < 32 ∨ 126 < s.getD i 0 → (sanitize patLen s).getD i 0 = 32) ∧
      (32 ≤ s.getD i 0 → s.getD i 0 ≤ 126 →
        (sanitize patLen s).getD i 0 = s.getD i 0)) := by
  unfold sanitize
  refine ⟨sanitizeAux_length _ _ _, fun hlt => ?_, fun hge => ⟨fun hbad => ?_, fun hlo hhi => ?_⟩⟩
  · rw [sanitizeAux_getD, if_neg (by rintro ⟨ha, -⟩; omega)]
  · rw [sanitizeAux_getD, if_pos ⟨hge, by omega, h, hbad⟩]
  · rw [sanitizeAux_getD, if_neg (by rintro ⟨-, -, -, hb⟩; omega)]

theorem c5_sanitize_contract_witness :
    (sanitize 3 [97, 98, 99, 7, 200]).length = ([97, 98, 99, 7, 200] : List Nat).length ∧
    (3 < 3 → (sanitize 3 [97, 98, 99, 7, 200]).getD 3 0 =
      ([97, 98, 99, 7, 200] : List Nat).getD 3 0) ∧
    (3 ≤ 3 →
      (([97, 98, 99, 7, 200] : List Nat).getD 3 0 < 32 ∨
          126 < ([97, 98, 99, 7, 200] : List Nat).getD 3 0 →
        (sanitize 3 [97, 98, 99, 7, 200]).getD 3 0 = 32) ∧
      (32 ≤ ([97, 98, 99, 7, 200] : List Nat).getD 3 0 →
        ([97, 98, 99, 7, 200] : List Nat).getD 3 0 ≤ 126 →
        (sanitize 3 [97, 98, 99, 7, 200]).getD 3 0 =
          ([97, 98, 99, 7, 200] : List Nat).getD 3 0)) :=
  c5_sanitize_contract 3 [97, 98, 99, 7, 200] 3 (by decide)

/-- C6: every reported match slice begins with the full pattern and carries at
most 20 bytes of trailing context; and on the spec example — pattern "abc",
haystack "xxabcxx" in one chunk — exactly one match is reported, at offset 2,
whose slice is "abcxx": the pattern plus the trailing context clipped at the
end of the valid buffer contents. -/
theorem c6_slice_contract :
    (∀ (pat : List Nat) (chunks : List (List Nat)) (buffer : Option (List Nat))
      (fuel : Nat) (em : List (Nat × List Nat)) (bufF : List Nat),
      search pat chunks buffer fuel = some (em, bufF) →
      ∀ p ∈ em, p.2.take pat.length = pat ∧ p.2.length ≤ pat.length + 20) ∧
    search [97, 98, 99] [[120, 120, 97, 98, 99, 120, 120]]
        (some (List.replicate 16 0)) 5 =
      some ([(2, [97, 98, 99, 120, 120])],
        [120, 120, 97, 98, 99, 120, 120, 0, 0, 0, 0, 0, 0, 0, 0, 0]) := by
  exact ⟨fun pat chunks buffer fuel em bufF h => search_mem h, by decide⟩

theorem c6_slice_contract_witness :
    ((2, [97, 98, 99, 120, 120]) : Nat × List Nat).2.take ([97, 98, 99] : List Nat).length =
      [97, 98, 99] ∧
    ((2, [97, 98, 99, 120, 120]) : Nat × List Nat).2.length ≤
      ([97, 98, 99] : List Nat).length + 20 :=
  c6_slice_contract.1 [97, 98, 99] [[120, 120, 97, 98, 99, 120, 120]]
    (some (List.replicate 16 0)) 5 [(2, [97, 98, 99, 120, 120])]
    [120, 120, 97, 98, 99, 120, 120, 0, 0, 0, 0, 0, 0, 0, 0, 0] (by decide)
    (2, [97, 98, 99, 120, 120]) (by decide)

/-- C7: a one-byte pattern never sets up a carry across a chunk boundary: for
every buffer and every valid size, one whole pass of the chunk-processing body
(inner match loop followed by the general carry scan of lines 222-230, with
the fuel that the scan loop supplies) completes with size_adjust 0 and an
unchanged buffer.  This is derived from the general logic: if the last valid
byte equalled the pattern, the inner loop would have reported a match ending
exactly at `size`, making `last_match_end < size` false, so the suffix scan
can never succeed for a pattern of length one. -/
theorem c7_onebyte_never_partial : ∀ (b : Nat) (buf : List Nat) (size : Nat),
    ∃ em, processChunk [b] buf size (size + 1) = some (em, 0, buf) := by
  intro b buf size
  obtain ⟨em, l2, t, hrun, hnone, hor⟩ :=
    @matchLoop_run [b] buf size (by simp)
      (size + 1) 0 (-1) [] (by omega)
  refine ⟨em, ?_⟩
  simp only [processChunk, hrun]
  split
  · next hlt =>
    have hfc : findCarry buf size [b] = none := by
      cases size with
      | zero => rfl
      | succ n =>
        have ht : t ≤ n := by
          rcases hor with ⟨hl, rfl⟩ | hl
          · omega
          · omega
        have hm : matchAt [b] buf n = false :=
          pyFind_none hnone n ht (by simp)
        have hkey : ((buf.take (n + 1)).drop (n + 1 - 1) == [b]) = false := by
          have e1 : n + 1 - 1 = n := by omega
          have e2 : n + 1 - n = 1 := by omega
          rw [e1, List.drop_take, e2]
          unfold matchAt at hm
          simpa using hm
        have hends : bufEndswith buf (n + 1) [b] = false := by
          unfold bufEndswith
          simp only [List.length_cons, List.length_nil, Nat.zero_add, hkey,
            Bool.and_false]
        have hstep : findCarry buf (n + 1) [b] =
            (if bufEndswith buf (n + 1) [b] = true then some 1 else none) := rfl
        rw [hstep, hends]
        simp
    rw [hfc]
  · rfl

theorem c7_onebyte_never_partial_witness :
    ∃ em, processChunk [5] [5, 6] 2 3 = some (em, 0, [5, 6]) :=
  c7_onebyte_never_partial 5 [5, 6] 2

/-- C8: the read buffer is created with capacity
`max(2 * len(pattern), 16384)` (lines 188-191), hence always at least twice
the pattern length; a `search` call that receives an existing buffer returns a
buffer of the same capacity (no reallocation, only in-place writes), and the
`run` loop that threads the returned buffer through every subsequent source
ends with a buffer of the original capacity.  The chunk-size hypothesis states
that each read returns at most what fits in the buffer view it was handed, as
`readinto` guarantees. -/
theorem c8_buffer_alloc_and_reuse : ∀ pat : List Nat,
    allocSize pat = max (2 * pat.length) 16384 ∧
    2 * pat.length ≤ allocSize pat ∧
    (∀ (chunks : List (List Nat)) (b : List Nat) (fuel : Nat)
      (em : List (Nat × List Nat)) (b2 : List Nat),
      (∀ c ∈ chunks, pat.length + c.length ≤ b.length) →
      search pat chunks (some b) fuel = some (em, b2) →
      b2.length = b.length) ∧
    (∀ (files : List (List (List Nat))) (b : List Nat) (fuel : Nat)
      (out : List (Nat × List Nat)) (bo : Option (List Nat)),
      (∀ f ∈ files, ∀ c ∈ f, pat.length + c.length ≤ b.length) →
      runFiles pat files (some b) fuel = some (out, bo) →
      ∃ b2, bo = some b2 ∧ b2.length = b.length) := by
  intro pat
  refine ⟨?_, ?_, fun chunks b fuel em b2 hch h => search_len hch h,
    fun files b fuel out bo hv h => runFiles_len files b fuel out bo hv h⟩
  · unfold allocSize
    split <;> omega
  · unfold allocSize
    split <;> omega

theorem c8_buffer_alloc_and_reuse_witness :
    ∃ b2, (some [99, 97, 0, 0] : Option (List Nat)) = some b2 ∧
      b2.length = (List.replicate 4 0 : List Nat).length :=
  (c8_buffer_alloc_and_reuse [97]).2.2.2 [[[98]], [[99, 97]]] (List.replicate 4 0) 5
    [(1, [97])] (some [99, 97, 0, 0]) (by decide) (by decide)

/-- C9: the claim asserts that a path argument matching nothing produces a
warning and scanning continues with the remaining path arguments.  The code
violates it: `FileIterator._iter_pattern` (lines 347-356) reports the empty
glob through `self.on_error`, and the override `MyFileIterator.on_error`
inside `run` (lines 142-144) executes `self.log_warning(message)` — but
`FileIterator` defines no `log_warning` attribute (that method lives on
`BgrepApplication`), so Python raises AttributeError, which neither `run` nor
`main` catches, aborting the whole run.  With path arguments [0, 1] where 0
matches nothing and 1 is a file containing "ab", no match is reported at all;
with [1] alone the match is reported. -/
theorem c9_unmatched_path_crash :
    runApp [97] resolveEx [0, 1] 5 =
      (some [], some "AttributeError: MyFileIterator object has no attribute log_warning") ∧
    runApp [97] resolveEx [1] 5 = (some [(0, [97, 98])], none) := by
  decide

/-- C10: reporting a match feeds nothing back into the scan: running the
loops with `on_match_found` applied at emission time (as the program does —
the slice is a fresh copy and sanitation mutates only that copy) produces
exactly the raw scan result with the sanitiser mapped over the reported
slices.  Offsets, the continued scan, the carried bytes and the final buffer
are identical, and the pattern is untouched. -/
theorem c10_report_no_feedback : ∀ (pat : List Nat) (chunks : List (List Nat))
    (buffer : Option (List Nat)) (fuel : Nat),
    searchS pat chunks buffer fuel =
      (search pat chunks buffer fuel).map
        (fun r => (r.1.map fun p => (p.1, on_match_found pat p.2), r.2)) := by
  intro pat chunks buffer fuel
  cases chunks with
  | nil => rfl
  | cons c cs =>
    simp only [searchS, search]
    exact scanLoopS_eq fuel cs _ _ 0

theorem c10_report_no_feedback_witness :
    searchS [7] [[7, 200]] (some (List.replicate 4 0)) 5 =
      (search [7] [[7, 200]] (some (List.replicate 4 0)) 5).map
        (fun r => (r.1.map fun p => (p.1, on_match_found [7] p.2), r.2)) :=
  c10_report_no_feedback [7] [[7, 200]] (some (List.replicate 4 0)) 5
